import Mathlib

/-!
Shallow embedding of the SMC pattern-detection engine of this repository:
the candle analysers of `smc_analyzer.py` (swing points, fair value gaps,
mitigation, liquidity sweeps, structure breaks, the M15 POI finder) and the
zone-lifecycle bookkeeping of the analysis loop in `main.py`.

Prices are modelled as rationals, timestamps as integers, and a pandas
DataFrame of candles as a chronological `List Candle`.  Loosely-typed POI
dictionaries become records whose possibly-absent keys are `Option` fields.
-/

namespace SMC

/-- One OHLC candle (a row of the candle DataFrame, with its index value). -/
structure Candle where
  time : ℤ
  Open : ℚ
  High : ℚ
  Low : ℚ
  Close : ℚ
  deriving DecidableEq

instance : Inhabited Candle := ⟨⟨0, 0, 0, 0, 0⟩⟩

/-- The direction strings used throughout the source:
`'Bullish'`, `'Bearish'`, `'Undetermined'`. -/
inductive Bias
  | Bullish
  | Bearish
  | Undetermined
  deriving DecidableEq

/-- The POI kind strings `'OB'` and `'FVG'`. -/
inductive PoiKind
  | OB
  | FVG
  deriving DecidableEq

/-- `df['High'].iloc[i]` (every use in the source is in range;
out of range we return the default candle's field). -/
def highAt (df : List Candle) (i : ℕ) : ℚ := (df.getD i default).High

/-- `df['Low'].iloc[i]`. -/
def lowAt (df : List Candle) (i : ℕ) : ℚ := (df.getD i default).Low

/-- `df.index[i]`. -/
def timeAt (df : List Candle) (i : ℕ) : ℤ := (df.getD i default).time

/-- `window[col].min()` over a candle window; `0` for an empty window
(all uses in the source are guarded by emptiness checks). -/
def colMin (f : Candle → ℚ) : List Candle → ℚ
  | [] => 0
  | c :: cs => cs.foldl (fun a x => min a (f x)) (f c)

/-- `window[col].max()` over a candle window; `0` for an empty window. -/
def colMax (f : Candle → ℚ) : List Candle → ℚ
  | [] => 0
  | c :: cs => cs.foldl (fun a x => max a (f x)) (f c)

/-! ## `find_swing_points` (smc_analyzer.py, v1.3) -/

/-- The inner j-loop for swing highs: index `i` keeps `is_sh` iff
`h_i > highs[i-j]` and `h_i > highs[i+j]` for every `j` in `1..lookback`
(the source clears `is_sh` on `h_i <= highs.iloc[i-j] or h_i <= highs.iloc[i+j]`). -/
def isSwingHigh (df : List Candle) (lookback i : ℕ) : Bool :=
  (List.range' 1 lookback).all fun j =>
    decide (highAt df (i - j) < highAt df i) && decide (highAt df (i + j) < highAt df i)

/-- The inner j-loop for swing lows (strict minimum on `Low`). -/
def isSwingLow (df : List Candle) (lookback i : ℕ) : Bool :=
  (List.range' 1 lookback).all fun j =>
    decide (lowAt df i < lowAt df (i - j)) && decide (lowAt df i < lowAt df (i + j))

/-- `find_swing_points`: the `SwingHigh` and `SwingLow` columns it adds
(`none` stands for NaN).  When `n < 2*lookback + 1` the loop is skipped and
both columns stay all-NaN; otherwise only `i` in `range(lookback, n - lookback)`
can be classified. -/
def find_swing_points (df : List Candle) (lookback : ℕ) : List (Option ℚ) × List (Option ℚ) :=
  let n := df.length
  if n < 2 * lookback + 1 then (List.replicate n none, List.replicate n none)
  else
    ((List.range n).map fun i =>
        if lookback ≤ i ∧ i < n - lookback ∧ isSwingHigh df lookback i
        then some (highAt df i) else none,
     (List.range n).map fun i =>
        if lookback ≤ i ∧ i < n - lookback ∧ isSwingLow df lookback i
        then some (lowAt df i) else none)

/-! ## `find_fvg` (smc_analyzer.py, v1) -/

/-- A fair value gap as `find_fvg` emits it; `index` is the timestamp of the
middle candle of the three-candle pattern. -/
structure Fvg where
  index : ℤ
  top : ℚ
  bottom : ℚ
  type : Bias
  mid : ℚ
  deriving DecidableEq

/-- `find_fvg`: for each `i ≥ 2`, candle `i` against candle `i-2`
(the source's duplicated inner conditions are kept as written). -/
def find_fvg (df : List Candle) : List Fvg :=
  if df.length < 3 then []
  else
    (List.range' 2 (df.length - 2)).filterMap fun i =>
      let low_i := lowAt df i
      let high_i_minus_2 := highAt df (i - 2)
      let high_i := highAt df i
      let low_i_minus_2 := lowAt df (i - 2)
      if low_i > high_i_minus_2 then
        (if low_i > high_i_minus_2 then
          some ⟨timeAt df (i - 1), low_i, high_i_minus_2, Bias.Bullish,
                (low_i + high_i_minus_2) / 2⟩
        else none)
      else if high_i < low_i_minus_2 then
        (if low_i_minus_2 > high_i then
          some ⟨timeAt df (i - 1), low_i_minus_2, high_i, Bias.Bearish,
                (low_i_minus_2 + high_i) / 2⟩
        else none)
      else none

/-! ## `_check_mitigation` and `_check_liquidity_sweep` -/

/-- The loosely-typed POI candidate dict as `_check_mitigation` and
`_check_liquidity_sweep` read it (`.get` of an absent key is `none`). -/
structure PoiDict where
  index : ℤ
  kind : PoiKind
  direction : Option Bias
  low : Option ℚ
  high : Option ℚ
  level_50 : Option ℚ
  deriving DecidableEq

/-- `_check_mitigation` (v1.1): returns `true` when any of `low`, `high`,
`level_50` is absent; otherwise scans the candles from
`poi_iloc + 1` (or `poi_iloc` for an FVG) to the end and compares the
window's extreme against `level_50` according to `direction`. -/
def check_mitigation (poi : PoiDict) (df : List Candle) (poi_iloc : ℕ) : Bool :=
  match poi.low, poi.high, poi.level_50 with
  | some _, some _, some poi_50 =>
    let mitigation_scan_start_iloc := if poi.kind ≠ PoiKind.FVG then poi_iloc + 1 else poi_iloc
    if mitigation_scan_start_iloc ≥ df.length then false
    else
      let candles_after_poi := df.drop mitigation_scan_start_iloc
      if candles_after_poi.isEmpty then false
      else
        let min_low_after := colMin (·.Low) candles_after_poi
        let max_high_after := colMax (·.High) candles_after_poi
        match poi.direction with
        | some Bias.Bearish => decide (min_low_after ≤ poi_50)
        | some Bias.Bullish => decide (max_high_after ≥ poi_50)
        | _ => false
  | _, _, _ => true

/-- `_check_liquidity_sweep` (v2.1) with its `lookback` window of candles
immediately preceding the POI formation. -/
def check_liquidity_sweep (poi : PoiDict) (df : List Candle) (poi_iloc lookback : ℕ) : Bool :=
  if poi_iloc < lookback then false
  else
    let sweep_scan_start_iloc := poi_iloc - lookback
    let sweep_scan_end_iloc := poi_iloc - 1
    if sweep_scan_start_iloc ≥ sweep_scan_end_iloc then false
    else
      let window_before_poi := (df.take (sweep_scan_end_iloc + 1)).drop sweep_scan_start_iloc
      if window_before_poi.isEmpty then false
      else
        let target_high_before := colMax (·.High) window_before_poi
        let target_low_before := colMin (·.Low) window_before_poi
        let formation :=
          if poi.kind = PoiKind.OB then (poi_iloc, poi_iloc)
          else if poi.kind = PoiKind.FVG then (poi_iloc - 1, min (df.length - 1) (poi_iloc + 1))
          else (poi_iloc, poi_iloc)
        let poi_formation_candles := (df.take (formation.2 + 1)).drop formation.1
        if poi_formation_candles.isEmpty then false
        else
          match poi.direction with
          | some Bias.Bearish => decide (colMax (·.High) poi_formation_candles > target_high_before)
          | some Bias.Bullish => decide (colMin (·.Low) poi_formation_candles < target_low_before)
          | _ => false

/-! ## `find_last_bos_in_range` (smc_analyzer.py, v10.0)

The source first extracts `df['SwingHigh'].dropna()` and
`df['SwingLow'].dropna()`: chronological pandas Series, i.e. lists of
`(timestamp, price)` pairs.  We embed the function from that point on. -/

/-- `'BOS_Up'` / `'BOS_Down'`. -/
inductive BosType
  | BOS_Up
  | BOS_Down
  deriving DecidableEq

/-- A structure break record as `find_last_bos_in_range` builds it. -/
structure Bos where
  type : BosType
  index : ℤ
  broken_level : ℚ
  price : ℚ
  deriving DecidableEq

/-- The break-up test at position `j ≥ 1` of the filtered swing-high list `hb`:
`last_h_price > prev_h_price` and at least one swing low with a timestamp
strictly between the adjacent pair. -/
def bosUpCond (hb lows : List (ℤ × ℚ)) (j : ℕ) : Bool :=
  let last := hb.getD j (0, 0)
  let prev := hb.getD (j - 1) (0, 0)
  decide (prev.2 < last.2) &&
    !(lows.filter fun l => decide (prev.1 < l.1) && decide (l.1 < last.1)).isEmpty

/-- The `last_bos_up` record built at position `j`. -/
def mkBosUp (hb : List (ℤ × ℚ)) (j : ℕ) : Bos :=
  ⟨BosType.BOS_Up, (hb.getD j (0, 0)).1, (hb.getD (j - 1) (0, 0)).2, (hb.getD j (0, 0)).2⟩

/-- The break-down test at position `j ≥ 1` of the filtered swing-low list `lb`:
`last_l_price < prev_l_price` and an intervening swing high. -/
def bosDownCond (lb highs : List (ℤ × ℚ)) (j : ℕ) : Bool :=
  let last := lb.getD j (0, 0)
  let prev := lb.getD (j - 1) (0, 0)
  decide (last.2 < prev.2) &&
    !(highs.filter fun h => decide (prev.1 < h.1) && decide (h.1 < last.1)).isEmpty

/-- The `last_bos_down` record built at position `j`. -/
def mkBosDown (lb : List (ℤ × ℚ)) (j : ℕ) : Bos :=
  ⟨BosType.BOS_Down, (lb.getD j (0, 0)).1, (lb.getD (j - 1) (0, 0)).2, (lb.getD j (0, 0)).2⟩

/-- The descending loop `for i in range(len - 1, 0, -1)` over adjacent pairs of
the filtered swing-high list, stopping at the first success. -/
def bosUpLoop (hb lows : List (ℤ × ℚ)) : ℕ → Option Bos
  | 0 => none
  | j + 1 =>
    if bosUpCond hb lows (j + 1) then some (mkBosUp hb (j + 1))
    else bosUpLoop hb lows j

/-- The descending loop over adjacent pairs of the filtered swing-low list. -/
def bosDownLoop (lb highs : List (ℤ × ℚ)) : ℕ → Option Bos
  | 0 => none
  | j + 1 =>
    if bosDownCond lb highs (j + 1) then some (mkBosDown lb (j + 1))
    else bosDownLoop lb highs j

/-- `highs_before_range_max`: the swing highs with timestamp strictly before
the range high's timestamp. -/
def highsBeforeRangeMax (swing_highs : List (ℤ × ℚ)) (range_high_idx : ℤ) : List (ℤ × ℚ) :=
  swing_highs.filter fun p => decide (p.1 < range_high_idx)

/-- `lows_before_range_min`: the swing lows with timestamp strictly before
the range low's timestamp. -/
def lowsBeforeRangeMin (swing_lows : List (ℤ × ℚ)) (range_low_idx : ℤ) : List (ℤ × ℚ) :=
  swing_lows.filter fun p => decide (p.1 < range_low_idx)

/-- The `last_bos_up` candidate block of `find_last_bos_in_range`. -/
def lastBosUp (swing_highs swing_lows : List (ℤ × ℚ)) (range_high_idx : ℤ) : Option Bos :=
  if 2 ≤ swing_highs.length then
    let highs_before_range_max := highsBeforeRangeMax swing_highs range_high_idx
    if 2 ≤ highs_before_range_max.length then
      bosUpLoop highs_before_range_max swing_lows (highs_before_range_max.length - 1)
    else none
  else none

/-- The `last_bos_down` candidate block of `find_last_bos_in_range`. -/
def lastBosDown (swing_lows swing_highs : List (ℤ × ℚ)) (range_low_idx : ℤ) : Option Bos :=
  if 2 ≤ swing_lows.length then
    let lows_before_range_min := lowsBeforeRangeMin swing_lows range_low_idx
    if 2 ≤ lows_before_range_min.length then
      bosDownLoop lows_before_range_min swing_highs (lows_before_range_min.length - 1)
    else none
  else none

/-- `find_last_bos_in_range` from the dropna step on: swing highs strictly
before `range_high_idx` are scanned for the last break up, swing lows strictly
before `range_low_idx` for the last break down, and of two candidates the one
with the larger `index` wins (ties go to the break down, by the source's
`last_bos_up if last_bos_up['index'] > last_bos_down['index'] else last_bos_down`). -/
def find_last_bos_in_range (swing_highs swing_lows : List (ℤ × ℚ))
    (range_high_idx range_low_idx : ℤ) : Option Bos :=
  match lastBosUp swing_highs swing_lows range_high_idx,
        lastBosDown swing_lows swing_highs range_low_idx with
  | some u, some d => some (if d.index < u.index then u else d)
  | some u, none => some u
  | none, some d => some d
  | none, none => none

/-- The bias derivation of `analyze_m15_setup`:
`'Bullish'` for a `BOS_Up`, `'Bearish'` for a `BOS_Down`, else `'Undetermined'`. -/
def biasOf : Option Bos → Bias
  | none => Bias.Undetermined
  | some b => if b.type = BosType.BOS_Up then Bias.Bullish else Bias.Bearish

/-! ## `find_m15_poi_in_range` (smc_analyzer.py, v10.3) -/

/-- The trading-range dict `{'low', 'high', 'eq'}`. -/
structure TrRange where
  low : ℚ
  high : ℚ
  eq : ℚ
  deriving DecidableEq

/-- The POI dict built by `find_m15_poi_in_range` (constant fields `'type':
'OB+FVG+Sweep'` and `'timeframe'` are omitted). -/
structure Poi where
  index : ℤ
  high : ℚ
  low : ℚ
  level_50 : ℚ
  direction : Bias
  fvg_details : Option Fvg
  deriving DecidableEq

/-- `relevant_fvgs`: the input gaps whose type matches the bias. -/
def relevantFvgs (bias : Bias) (fvgs : List Fvg) : List Fvg :=
  fvgs.filter fun fvg =>
    decide ((bias = Bias.Bullish ∧ fvg.type = Bias.Bullish) ∨
            (bias = Bias.Bearish ∧ fvg.type = Bias.Bearish))

/-- `fvg_check_indices`: the index values of the `fvg_search_limit = 5`
candles after scan position `i` (`df.index[i+1 : min(len(df), i+6)]`). -/
def fvgCheckIndices (df : List Candle) (i : ℕ) : List ℤ :=
  ((df.drop (i + 1)).take 5).map Candle.time

/-- Conditions 1-4 of the scan body of `find_m15_poi_in_range` at position `i`:
correct candle colour, fully inside the premium/discount sub-zone, an
associated matching-direction FVG within the next 5 candles, and the local
liquidity-sweep confirmation with `lookback = 5`. -/
def poiCond (df : List Candle) (tr : TrRange) (bias : Bias) (fvgs : List Fvg) (i : ℕ) : Bool :=
  let search_zone_low := if bias = Bias.Bearish then tr.eq else tr.low
  let search_zone_high := if bias = Bias.Bearish then tr.high else tr.eq
  let candle := df.getD i default
  let is_bullish_candle := decide (candle.Open < candle.Close)
  let is_bearish_candle := decide (candle.Close < candle.Open)
  let is_correct_type :=
    (decide (bias = Bias.Bearish) && is_bullish_candle) ||
    (decide (bias = Bias.Bullish) && is_bearish_candle)
  let is_in_zone :=
    (decide (bias = Bias.Bearish) && decide (search_zone_low ≤ candle.Low) &&
      decide (candle.High ≤ search_zone_high)) ||
    (decide (bias = Bias.Bullish) && decide (candle.High ≤ search_zone_high) &&
      decide (search_zone_low ≤ candle.Low))
  let fvg_found :=
    (relevantFvgs bias fvgs).any fun fvg => (fvgCheckIndices df i).contains fvg.index
  let ob_candidate : PoiDict := ⟨timeAt df i, PoiKind.OB, some bias, none, none, none⟩
  is_correct_type && is_in_zone && fvg_found && check_liquidity_sweep ob_candidate df i 5

/-- The POI dict assembled when the scan stops at position `i`:
`high`/`low` from `High`/`Open` for a Bearish bias and from `Open`/`Low` for a
Bullish one, `level_50` their midpoint, and the first matching FVG recorded. -/
def mkPoi (df : List Candle) (bias : Bias) (fvgs : List Fvg) (i : ℕ) : Poi :=
  let candle := df.getD i default
  let poi_high := if bias = Bias.Bearish then candle.High else candle.Open
  let poi_low := if bias = Bias.Bearish then candle.Open else candle.Low
  let fvg_details :=
    (relevantFvgs bias fvgs).find? fun fvg => (fvgCheckIndices df i).contains fvg.index
  ⟨timeAt df i, poi_high, poi_low, (poi_high + poi_low) / 2, bias, fvg_details⟩

/-- The descending scan `for i in range(start_iloc, end_iloc, -1)` with the
`if i < 1: break` guard: positions `end_iloc < i ≤ start` with `i ≥ 1`,
most recent first, stopping at the first position passing `poiCond`. -/
def poiLoop (df : List Candle) (tr : TrRange) (bias : Bias) (fvgs : List Fvg)
    (end_iloc : ℕ) : ℕ → Option Poi
  | 0 => none
  | i + 1 =>
    if i + 1 ≤ end_iloc then none
    else if poiCond df tr bias fvgs (i + 1) then some (mkPoi df bias fvgs (i + 1))
    else poiLoop df tr bias fvgs end_iloc i

/-- `find_m15_poi_in_range`: `none` for an `'Undetermined'` bias, otherwise the
backward scan from `len(df) - 2` over the last 96 candles
(`end_iloc = max(0, len(df) - 96 - 1)`; natural subtraction clamps at 0). -/
def find_m15_poi_in_range (df : List Candle) (tr : TrRange) (bias : Bias)
    (fvgs : List Fvg) : Option Poi :=
  if bias = Bias.Undetermined then none
  else
    let start_iloc := df.length - 2
    let end_iloc := df.length - 96 - 1
    poiLoop df tr bias fvgs end_iloc start_iloc

/-! ## The zone-lifecycle bookkeeping of `analysis_loop` (main.py) -/

/-- A tracked zone: the POI dict with the tracker-owned `arrival_alerted` flag. -/
structure TrackedZone where
  poi : Poi
  arrival_alerted : Bool
  deriving DecidableEq

/-- The lifecycle events the loop turns into Telegram alerts:
`NEW_POI_M15` and `PRICE_ENTERING_POI`, keyed by the zone's formation index. -/
inductive Event
  | newZone (idx : ℤ)
  | arrival (idx : ℤ)
  deriving DecidableEq

/-- `active_pois_dict`: an insertion-ordered mapping from formation index to
tracked zone, modelled as an association list with distinct keys. -/
abbrev ZoneMap := List (ℤ × TrackedZone)

/-- The key set of the mapping (`active_pois_dict.keys()`). -/
def keysOf (st : ZoneMap) : List ℤ := st.map Prod.fst

/-- Dict lookup. -/
def lookupZ : ZoneMap → ℤ → Option TrackedZone
  | [], _ => none
  | (k, z) :: rest, k' => if k = k' then some z else lookupZ rest k'

/-- Dict assignment `d[k] = z`: an existing key keeps its position and gets the
new value, a fresh key is appended. -/
def insertZ : ZoneMap → ℤ → TrackedZone → ZoneMap
  | [], k, z => [(k, z)]
  | (k', z') :: rest, k, z =>
    if k' = k then (k', z) :: rest else (k', z') :: insertZ rest k z

/-- A live quote `{bid, ask}`. -/
structure Quote where
  bid : ℚ
  ask : ℚ
  deriving DecidableEq

/-- The candidate-processing loop of step 3 of `analysis_loop`: a candidate
whose index is not in the snapshot `current_active_indices` is stored with
`arrival_alerted = False` and queues a `NEW_POI_M15` alert; others are left
alone. -/
def diffLoop (current_active_indices : List ℤ) :
    ZoneMap → List Event → List Poi → ZoneMap × List Event
  | st, evs, [] => (st, evs)
  | st, evs, poi :: rest =>
    if poi.index ∈ current_active_indices then diffLoop current_active_indices st evs rest
    else
      diffLoop current_active_indices (insertZ st poi.index ⟨poi, false⟩)
        (evs ++ [Event.newZone poi.index]) rest

/-- Step 3 of `analysis_loop` in full: process the fresh candidate list, then
silently pop `current_active_indices - found_indices` from the mapping. -/
def diffStep (st : ZoneMap) (cands : List Poi) : ZoneMap × List Event :=
  let current_active_indices := keysOf st
  let found_indices := cands.map Poi.index
  let r := diffLoop current_active_indices st [] cands
  (r.1.filter fun e =>
      !(decide (e.1 ∈ current_active_indices) && !decide (e.1 ∈ found_indices)),
   r.2)

/-- The per-zone body of step 4 of `analysis_loop`: pick `ask` for a
`'Bullish'` zone and `bid` otherwise, test `low ≤ price ≤ high`; on entry with
a clear flag set it and emit, on exit with a set flag silently reset it.
Returns the updated zone and whether a `PRICE_ENTERING_POI` alert was queued. -/
def checkArrival (z : TrackedZone) (q : Quote) : TrackedZone × Bool :=
  let current_price := if z.poi.direction = Bias.Bullish then q.ask else q.bid
  let is_inside_poi := decide (z.poi.low ≤ current_price) && decide (current_price ≤ z.poi.high)
  if is_inside_poi && !z.arrival_alerted then ({ z with arrival_alerted := true }, true)
  else if !is_inside_poi && z.arrival_alerted then ({ z with arrival_alerted := false }, false)
  else (z, false)

/-- Step 4 of `analysis_loop` over the whole mapping, in insertion order. -/
def arrivalStep : ZoneMap → Quote → ZoneMap × List Event
  | [], _ => ([], [])
  | (k, z) :: rest, q =>
    let r := checkArrival z q
    let rr := arrivalStep rest q
    ((k, r.1) :: rr.1, (if r.2 then [Event.arrival k] else []) ++ rr.2)

/-! ## Helper lemmas -/

/-- Folding `min` never increases the accumulator. -/
theorem foldl_min_le (f : Candle → ℚ) :
    ∀ (ys : List Candle) (a : ℚ), ys.foldl (fun b x => min b (f x)) a ≤ a
  | [], _ => le_refl _
  | y :: ys, a => le_trans (foldl_min_le f ys (min a (f y))) (min_le_left _ _)

/-- Folding `max` never decreases the accumulator. -/
theorem le_foldl_max (f : Candle → ℚ) :
    ∀ (ys : List Candle) (a : ℚ), a ≤ ys.foldl (fun b x => max b (f x)) a
  | [], _ => le_refl _
  | y :: ys, a => le_trans (le_max_left _ _) (le_foldl_max f ys (max a (f y)))

/-- Appending candles can only lower the column minimum. -/
theorem colMin_append_le (f : Candle → ℚ) (xs ys : List Candle) (hx : xs ≠ []) :
    colMin f (xs ++ ys) ≤ colMin f xs := by
  cases xs with
  | nil => exact absurd rfl hx
  | cons c cs => simpa [colMin, List.foldl_append] using foldl_min_le f ys (cs.foldl (fun b x => min b (f x)) (f c))

/-- Appending candles can only raise the column maximum. -/
theorem colMax_le_append (f : Candle → ℚ) (xs ys : List Candle) (hx : xs ≠ []) :
    colMax f xs ≤ colMax f (xs ++ ys) := by
  cases xs with
  | nil => exact absurd rfl hx
  | cons c cs => simpa [colMax, List.foldl_append] using le_foldl_max f ys (cs.foldl (fun b x => max b (f x)) (f c))

/-! ## C10: `_check_mitigation` on a candidate with missing fields -/

/-- C10: for every zone candidate missing any of its `low`, `high` or
`level_50` fields, `_check_mitigation` returns true (the candidate is treated
as already mitigated), never an error and never false. -/
theorem C10_mitigation_missing_fields (poi : PoiDict) (df : List Candle) (poi_iloc : ℕ)
    (h : poi.low = none ∨ poi.high = none ∨ poi.level_50 = none) :
    check_mitigation poi df poi_iloc = true := by
  rcases poi with ⟨pi, pk, pd, plo, phi, p50⟩
  rcases plo with _ | lo <;> rcases phi with _ | hi <;> rcases p50 with _ | l5 <;>
    simp_all [check_mitigation]

/-- C10 witness: a concrete candidate with all three fields absent. -/
theorem C10_mitigation_missing_fields_witness :
    check_mitigation ⟨0, PoiKind.OB, some Bias.Bullish, none, none, none⟩ [] 0 = true :=
  C10_mitigation_missing_fields _ [] 0 (Or.inl rfl)

/-! ## C1: the direction convention of `_check_mitigation`

The spec says a Bullish zone is mitigated when some later candle's low
retraces to or below `level_50`, a Bearish zone when some later high rises to
or above it.  The code tests `min_low_after <= poi_50` for *Bearish* and
`max_high_after >= poi_50` for *Bullish*: the two directions are swapped. -/

/-- A Bullish OB zone `[0, 10]` with mid level 5. -/
def c1poiBull : PoiDict := ⟨0, PoiKind.OB, some Bias.Bullish, some 0, some 10, some 5⟩

/-- The same zone tagged Bearish. -/
def c1poiBear : PoiDict := ⟨0, PoiKind.OB, some Bias.Bearish, some 0, some 10, some 5⟩

/-- Formation candle followed by one candle with low 1 and high 4. -/
def c1df : List Candle := [⟨0, 5, 10, 0, 5⟩, ⟨1, 2, 4, 1, 3⟩]

/-- C1, evaluated at the failing input: the single post-formation candle has
low 1 ≤ 5 and high 4 < 5, so per the claim the Bullish zone is mitigated and
the Bearish one is not; the code answers false for the Bullish zone and true
for the Bearish one, because it compares the window minimum low against mid
for Bearish zones and the window maximum high for Bullish zones. -/
theorem C1_mitigation_direction_eval :
    (∀ c ∈ c1df.drop 1, c.Low ≤ 5 ∧ c.High < 5) ∧
    check_mitigation c1poiBull c1df 0 = false ∧
    check_mitigation c1poiBear c1df 0 = true := by
  refine ⟨?_, by decide, by decide⟩
  decide

/-! ## C8: mitigation is monotone in the candle series -/

/-- C8: once `_check_mitigation` answers true on a series, it answers true on
every extension of that series by further candles (a zone never un-mitigates). -/
theorem C8_mitigation_monotone (poi : PoiDict) (df ext : List Candle) (poi_iloc : ℕ)
    (h : check_mitigation poi df poi_iloc = true) :
    check_mitigation poi (df ++ ext) poi_iloc = true := by
  rcases poi with ⟨pi, pk, pd, plo, phi, p50⟩
  cases plo with
  | none => simp [check_mitigation]
  | some lo =>
  cases phi with
  | none => simp [check_mitigation]
  | some hi =>
  cases p50 with
  | none => simp [check_mitigation]
  | some l5 =>
  simp only [check_mitigation, ne_eq, ite_not, ge_iff_le, List.isEmpty_eq_true,
    List.drop_eq_nil_iff, ite_eq_right_iff, Bool.ite_eq_true_distrib] at h ⊢
  set s := if pk = PoiKind.FVG then poi_iloc else poi_iloc + 1 with hs
  by_cases hlen : df.length ≤ s
  · rw [if_pos hlen] at h
    exact absurd h (by simp)
  · push_neg at hlen
    rw [if_neg (by omega), if_neg (by omega)] at h
    have hlen2 : ¬ (df ++ ext).length ≤ s := by
      simp only [List.length_append]; omega
    rw [if_neg hlen2, if_neg hlen2]
    have hdrop : (df ++ ext).drop s = df.drop s ++ ext :=
      List.drop_append_of_le_length (le_of_lt hlen)
    have hne : df.drop s ≠ [] := by
      intro hnil
      have := List.drop_eq_nil_iff.mp hnil
      omega
    rcases pd with _ | dir
    · exact absurd h (by simp)
    · cases dir with
      | Bearish =>
        simp only [decide_eq_true_eq] at h ⊢
        calc colMin (·.Low) ((df ++ ext).drop s)
            ≤ colMin (·.Low) (df.drop s) := by rw [hdrop]; exact colMin_append_le _ _ _ hne
          _ ≤ l5 := h
      | Bullish =>
        simp only [ge_iff_le, decide_eq_true_eq] at h ⊢
        calc l5 ≤ colMax (·.High) (df.drop s) := h
          _ ≤ colMax (·.High) ((df ++ ext).drop s) := by
              rw [hdrop]; exact colMax_le_append _ _ _ hne
      | Undetermined => exact absurd h (by simp)

/-- C8 witness: the Bearish zone of the C1 input is mitigated after the first
candle, and stays mitigated when a further candle arrives. -/
theorem C8_mitigation_monotone_witness :
    check_mitigation c1poiBear (c1df ++ [⟨2, 50, 60, 40, 50⟩]) 0 = true :=
  C8_mitigation_monotone c1poiBear c1df [⟨2, 50, 60, 40, 50⟩] 0 (by decide)

/-! ## C3: swing-point classification -/

/-- `getD` over a mapped range. -/
theorem getD_map_range {α : Type} (f : ℕ → α) (d : α) (n i : ℕ) :
    ((List.range n).map f).getD i d = if i < n then f i else d := by
  rw [List.getD_eq_getElem?_getD, List.getElem?_map]
  by_cases h : i < n
  · rw [List.getElem?_range h, if_pos h]
    rfl
  · rw [List.getElem?_eq_none (by simpa using h), if_neg h]
    rfl

/-- `getD` over an all-`none` column. -/
theorem getD_replicate_none {α : Type} (n i : ℕ) :
    (List.replicate n (none : Option α)).getD i none = none := by
  rw [List.getD_eq_getElem?_getD, List.getElem?_replicate]
  split <;> rfl

/-- C3: the detector classifies index `i` as a swing High iff `i` has at
least `k` candles on each side and `high[i]` is strictly greater than every
`high[i∓j]` for `j` in `1..k` (so an equal neighbouring high disqualifies),
and symmetrically for swing Lows on the lows; in particular the first `k` and
last `k` indices are never classified, and one index may satisfy both strict
conditions at once. -/
theorem C3_swing_points_iff (df : List Candle) (k i : ℕ) :
    ((find_swing_points df k).1.getD i none ≠ none ↔
      (k ≤ i ∧ i + k < df.length ∧ ∀ j, 1 ≤ j → j ≤ k →
        highAt df (i - j) < highAt df i ∧ highAt df (i + j) < highAt df i)) ∧
    ((find_swing_points df k).2.getD i none ≠ none ↔
      (k ≤ i ∧ i + k < df.length ∧ ∀ j, 1 ≤ j → j ≤ k →
        lowAt df i < lowAt df (i - j) ∧ lowAt df i < lowAt df (i + j))) := by
  by_cases hn : df.length < 2 * k + 1
  · constructor
    · rw [show (find_swing_points df k).1 = List.replicate df.length none by
            simp [find_swing_points, hn]]
      rw [getD_replicate_none]
      simp only [ne_eq, not_true_eq_false, false_iff]
      rintro ⟨h1, h2, -⟩
      omega
    · rw [show (find_swing_points df k).2 = List.replicate df.length none by
            simp [find_swing_points, hn]]
      rw [getD_replicate_none]
      simp only [ne_eq, not_true_eq_false, false_iff]
      rintro ⟨h1, h2, -⟩
      omega
  · constructor
    · rw [show (find_swing_points df k).1 = (List.range df.length).map fun i =>
            if k ≤ i ∧ i < df.length - k ∧ isSwingHigh df k i
            then some (highAt df i) else none by
          simp [find_swing_points, hn]]
      rw [getD_map_range]
      by_cases hi : i < df.length
      · rw [if_pos hi]
        constructor
        · intro h
          split at h
          next hcond =>
            obtain ⟨h1, h2, h3⟩ := hcond
            refine ⟨h1, by omega, ?_⟩
            intro j hj1 hjk
            have hme := (List.all_eq_true.mp h3) j
              (List.mem_range'.mpr ⟨j - 1, by omega, by omega⟩)
            simpa using hme
          next => exact absurd rfl h
        · rintro ⟨h1, h2, h3⟩
          have hsw : isSwingHigh df k i = true := by
            rw [isSwingHigh, List.all_eq_true]
            intro j hj
            obtain ⟨m, hm, rfl⟩ := List.mem_range'.mp hj
            simpa using h3 (1 + 1 * m) (by omega) (by omega)
          rw [if_pos ⟨h1, by omega, hsw⟩]
          simp
      · rw [if_neg hi]
        simp only [ne_eq, not_true_eq_false, false_iff]
        rintro ⟨h1, h2, -⟩
        omega
    · rw [show (find_swing_points df k).2 = (List.range df.length).map fun i =>
            if k ≤ i ∧ i < df.length - k ∧ isSwingLow df k i
            then some (lowAt df i) else none by
          simp [find_swing_points, hn]]
      rw [getD_map_range]
      by_cases hi : i < df.length
      · rw [if_pos hi]
        constructor
        · intro h
          split at h
          next hcond =>
            obtain ⟨h1, h2, h3⟩ := hcond
            refine ⟨h1, by omega, ?_⟩
            intro j hj1 hjk
            have hme := (List.all_eq_true.mp h3) j
              (List.mem_range'.mpr ⟨j - 1, by omega, by omega⟩)
            simpa using hme
          next => exact absurd rfl h
        · rintro ⟨h1, h2, h3⟩
          have hsw : isSwingLow df k i = true := by
            rw [isSwingLow, List.all_eq_true]
            intro j hj
            obtain ⟨m, hm, rfl⟩ := List.mem_range'.mp hj
            simpa using h3 (1 + 1 * m) (by omega) (by omega)
          rw [if_pos ⟨h1, by omega, hsw⟩]
          simp
      · rw [if_neg hi]
        simp only [ne_eq, not_true_eq_false, false_iff]
        rintro ⟨h1, h2, -⟩
        omega

/-! ## C2: the gap detector -/

/-- An in-range `getD` access is a member of the list. -/
theorem getD_mem {α : Type} [Inhabited α] (l : List α) (i : ℕ) (h : i < l.length) :
    l.getD i default ∈ l := by
  rw [List.getD_eq_getElem l default h]
  exact List.getElem_mem h

/-- The gap emitted at index `i` as claim C2 words it: a Bullish Gap exactly
when `low[i] > high[i-2]` (top `low[i]`, bottom `high[i-2]`), a Bearish Gap
exactly when `high[i] < low[i-2]` (top `low[i-2]`, bottom `high[i]`), each
with `mid = (top+bottom)/2` and the middle candle's timestamp, and nothing
for `i < 2`. -/
def fvgSpecAt (df : List Candle) (i : ℕ) : Option Fvg :=
  if 2 ≤ i ∧ highAt df (i - 2) < lowAt df i then
    some ⟨timeAt df (i - 1), lowAt df i, highAt df (i - 2), Bias.Bullish,
          (lowAt df i + highAt df (i - 2)) / 2⟩
  else if 2 ≤ i ∧ highAt df i < lowAt df (i - 2) then
    some ⟨timeAt df (i - 1), lowAt df (i - 2), highAt df i, Bias.Bearish,
          (lowAt df (i - 2) + highAt df i) / 2⟩
  else none

/-- The three synthetic candles of the claim's example:
`(H,L) = (10,9), (12,11), (15,13)`. -/
def c2candles : List Candle :=
  [⟨0, 9, 10, 9, 9⟩, ⟨1, 11, 12, 11, 11⟩, ⟨2, 13, 15, 13, 13⟩]

/-- C2: on candles whose lows do not exceed their highs, `find_fvg` emits
gaps exactly as described per index (the two gap conditions are mutually
exclusive, so the detector's if/elif order loses nothing), every emitted gap
carries `mid = (top+bottom)/2`, and the claim's three-candle example yields
exactly one Bullish Gap with top 13, bottom 10, mid 11.5 at the middle
candle. -/
theorem C2_find_fvg_spec (df : List Candle) (hwf : ∀ c ∈ df, c.Low ≤ c.High) :
    find_fvg df = (List.range df.length).filterMap (fvgSpecAt df) ∧
    (∀ i, i < df.length →
      ¬(highAt df (i - 2) < lowAt df i ∧ highAt df i < lowAt df (i - 2))) ∧
    (∀ g ∈ find_fvg df, g.mid = (g.top + g.bottom) / 2) ∧
    find_fvg c2candles = [⟨1, 13, 10, Bias.Bullish, 23 / 2⟩] := by
  have hexcl : ∀ i, i < df.length →
      ¬(highAt df (i - 2) < lowAt df i ∧ highAt df i < lowAt df (i - 2)) := by
    intro i hi ⟨h1, h2⟩
    have hwi := hwf (df.getD i default) (getD_mem df i hi)
    have hwi2 := hwf (df.getD (i - 2) default)
      (getD_mem df (i - 2) (lt_of_le_of_lt (Nat.sub_le i 2) hi))
    simp only [highAt, lowAt] at h1 h2
    linarith
  have heq : find_fvg df = (List.range df.length).filterMap (fvgSpecAt df) := by
    rw [find_fvg]
    by_cases hn : df.length < 3
    · rw [if_pos hn]
      symm
      rw [List.filterMap_eq_nil_iff]
      intro i hi
      rw [List.mem_range] at hi
      have : ¬ 2 ≤ i := by omega
      simp [fvgSpecAt, this]
    · rw [if_neg hn]
      have hsplit : List.range df.length =
          List.range' 0 2 ++ List.range' 2 (df.length - 2) := by
        have happ := List.range'_append 0 2 (df.length - 2) 1
        norm_num at happ
        rw [List.range_eq_range']
        conv_lhs => rw [show df.length = df.length - 2 + 2 by omega]
        rw [← happ]
      rw [hsplit, List.filterMap_append]
      have h01 : List.filterMap (fvgSpecAt df) (List.range' 0 2) = [] := by
        rw [show List.range' 0 2 = [0, 1] from rfl]
        have h0 : fvgSpecAt df 0 = none := by simp [fvgSpecAt]
        have h1 : fvgSpecAt df 1 = none := by simp [fvgSpecAt]
        simp [h0, h1]
      rw [h01, List.nil_append]
      apply List.filterMap_congr
      intro i hi
      have h2i : 2 ≤ i := by
        obtain ⟨m, hm, rfl⟩ := List.mem_range'.mp hi
        omega
      by_cases hb : highAt df (i - 2) < lowAt df i
      · simp [fvgSpecAt, hb, h2i, gt_iff_lt]
      · by_cases hs : highAt df i < lowAt df (i - 2)
        · simp [fvgSpecAt, hb, hs, h2i, gt_iff_lt]
        · simp [fvgSpecAt, hb, hs, gt_iff_lt]
  refine ⟨heq, hexcl, ?_, by
    norm_num [find_fvg, c2candles, List.range', List.filterMap_cons, highAt, lowAt, timeAt]⟩
  intro g hg
  rw [heq] at hg
  obtain ⟨i, -, hfi⟩ := List.mem_filterMap.mp hg
  rw [fvgSpecAt] at hfi
  split at hfi
  · cases hfi
    rfl
  · split at hfi
    · cases hfi
      rfl
    · exact absurd hfi (by simp)

/-- C2 witness: the example conjunct, at the concrete three-candle input. -/
theorem C2_find_fvg_spec_witness :
    find_fvg c2candles = [⟨1, 13, 10, Bias.Bullish, 23 / 2⟩] :=
  (C2_find_fvg_spec c2candles (by decide)).2.2.2

/-! ## C4: the structure-break resolver -/

/-- The break-up test as the claim words it: the adjacent pair
(earlier A at `j-1`, later B at `j`) has `price(B) > price(A)` and some swing
low lies strictly between their timestamps. -/
def specBosUpCond (hb lows : List (ℤ × ℚ)) (j : ℕ) : Prop :=
  (hb.getD (j - 1) (0, 0)).2 < (hb.getD j (0, 0)).2 ∧
  ∃ l ∈ lows, (hb.getD (j - 1) (0, 0)).1 < l.1 ∧ l.1 < (hb.getD j (0, 0)).1

/-- The break-down test as the claim words it. -/
def specBosDownCond (lb highs : List (ℤ × ℚ)) (j : ℕ) : Prop :=
  (lb.getD j (0, 0)).2 < (lb.getD (j - 1) (0, 0)).2 ∧
  ∃ h ∈ highs, (lb.getD (j - 1) (0, 0)).1 < h.1 ∧ h.1 < (lb.getD j (0, 0)).1

/-- The code's boolean pair test agrees with the claim's wording. -/
theorem bosUpCond_iff (hb lows : List (ℤ × ℚ)) (j : ℕ) :
    bosUpCond hb lows j = true ↔ specBosUpCond hb lows j := by
  simp [bosUpCond, specBosUpCond, List.isEmpty_iff, List.filter_eq_nil_iff]

/-- The code's boolean pair test agrees with the claim's wording (downward). -/
theorem bosDownCond_iff (lb highs : List (ℤ × ℚ)) (j : ℕ) :
    bosDownCond lb highs j = true ↔ specBosDownCond lb highs j := by
  simp [bosDownCond, specBosDownCond, List.isEmpty_iff, List.filter_eq_nil_iff]

/-- The descending adjacent-pair scan returns exactly the record at the
greatest position `j ≤ i` whose pair passes the test. -/
theorem bosUpLoop_eq_some_iff (hb lows : List (ℤ × ℚ)) (i : ℕ) (b : Bos) :
    bosUpLoop hb lows i = some b ↔
      ∃ j, 1 ≤ j ∧ j ≤ i ∧ bosUpCond hb lows j = true ∧ b = mkBosUp hb j ∧
        ∀ jj, j < jj → jj ≤ i → bosUpCond hb lows jj = false := by
  induction i with
  | zero =>
    simp only [bosUpLoop]
    constructor
    · intro h
      exact absurd h (by simp)
    · rintro ⟨j, hj1, hj0, -⟩
      omega
  | succ i ih =>
    rw [bosUpLoop]
    cases hcb : bosUpCond hb lows (i + 1) with
    | true =>
      rw [if_pos rfl]
      constructor
      · intro h
        exact ⟨i + 1, by omega, le_refl _, hcb, (Option.some.inj h).symm,
          fun jj h1 h2 => (by omega : False).elim⟩
      · rintro ⟨j, hj1, hji, hcj, hbe, hmax⟩
        have hj : j = i + 1 := by
          by_contra hne
          have hf := hmax (i + 1) (by omega) (by omega)
          rw [hcb] at hf
          exact absurd hf (by simp)
        subst hj
        rw [hbe]
    | false =>
      rw [if_neg (by simp [hcb])]
      rw [ih]
      constructor
      · rintro ⟨j, hj1, hji, hcj, hbe, hmax⟩
        refine ⟨j, hj1, by omega, hcj, hbe, fun jj h1 h2 => ?_⟩
        rcases Nat.lt_or_ge jj (i + 1) with hlt | hge
        · exact hmax jj h1 (by omega)
        · have hj2 : jj = i + 1 := by omega
          rw [hj2]
          exact hcb
      · rintro ⟨j, hj1, hji, hcj, hbe, hmax⟩
        have hjle : j ≤ i := by
          rcases Nat.eq_or_lt_of_le hji with he | hlt
          · rw [he] at hcj
            rw [hcj] at hcb
            exact absurd hcb (by simp)
          · omega
        exact ⟨j, hj1, hjle, hcj, hbe, fun jj h1 h2 => hmax jj h1 (by omega)⟩

/-- Downward version of `bosUpLoop_eq_some_iff`. -/
theorem bosDownLoop_eq_some_iff (lb highs : List (ℤ × ℚ)) (i : ℕ) (b : Bos) :
    bosDownLoop lb highs i = some b ↔
      ∃ j, 1 ≤ j ∧ j ≤ i ∧ bosDownCond lb highs j = true ∧ b = mkBosDown lb j ∧
        ∀ jj, j < jj → jj ≤ i → bosDownCond lb highs jj = false := by
  induction i with
  | zero =>
    simp only [bosDownLoop]
    constructor
    · intro h
      exact absurd h (by simp)
    · rintro ⟨j, hj1, hj0, -⟩
      omega
  | succ i ih =>
    rw [bosDownLoop]
    cases hcb : bosDownCond lb highs (i + 1) with
    | true =>
      rw [if_pos rfl]
      constructor
      · intro h
        exact ⟨i + 1, by omega, le_refl _, hcb, (Option.some.inj h).symm,
          fun jj h1 h2 => (by omega : False).elim⟩
      · rintro ⟨j, hj1, hji, hcj, hbe, hmax⟩
        have hj : j = i + 1 := by
          by_contra hne
          have hf := hmax (i + 1) (by omega) (by omega)
          rw [hcb] at hf
          exact absurd hf (by simp)
        subst hj
        rw [hbe]
    | false =>
      rw [if_neg (by simp [hcb])]
      rw [ih]
      constructor
      · rintro ⟨j, hj1, hji, hcj, hbe, hmax⟩
        refine ⟨j, hj1, by omega, hcj, hbe, fun jj h1 h2 => ?_⟩
        rcases Nat.lt_or_ge jj (i + 1) with hlt | hge
        · exact hmax jj h1 (by omega)
        · have hj2 : jj = i + 1 := by omega
          rw [hj2]
          exact hcb
      · rintro ⟨j, hj1, hji, hcj, hbe, hmax⟩
        have hjle : j ≤ i := by
          rcases Nat.eq_or_lt_of_le hji with he | hlt
          · rw [he] at hcj
            rw [hcj] at hcb
            exact absurd hcb (by simp)
          · omega
        exact ⟨j, hj1, hjle, hcj, hbe, fun jj h1 h2 => hmax jj h1 (by omega)⟩

/-- The up-candidate block returns exactly the break at the most recent
qualifying adjacent pair of the filtered swing-high list. -/
theorem lastBosUp_eq_some_iff (swing_highs swing_lows : List (ℤ × ℚ))
    (range_high_idx : ℤ) (b : Bos) :
    lastBosUp swing_highs swing_lows range_high_idx = some b ↔
      ∃ j, 1 ≤ j ∧ j < (highsBeforeRangeMax swing_highs range_high_idx).length ∧
        specBosUpCond (highsBeforeRangeMax swing_highs range_high_idx) swing_lows j ∧
        b = mkBosUp (highsBeforeRangeMax swing_highs range_high_idx) j ∧
        ∀ jj, j < jj → jj < (highsBeforeRangeMax swing_highs range_high_idx).length →
          ¬ specBosUpCond (highsBeforeRangeMax swing_highs range_high_idx) swing_lows jj := by
  set hb := highsBeforeRangeMax swing_highs range_high_idx with hhb
  have hlen : hb.length ≤ swing_highs.length := by
    rw [hhb, highsBeforeRangeMax]
    exact List.length_filter_le _ _
  by_cases h2 : 2 ≤ swing_highs.length
  · rw [lastBosUp, if_pos h2]
    by_cases h2f : 2 ≤ hb.length
    · rw [← hhb, if_pos h2f, bosUpLoop_eq_some_iff]
      constructor
      · rintro ⟨j, hj1, hji, hcj, hbe, hmax⟩
        exact ⟨j, hj1, by omega, (bosUpCond_iff _ _ _).mp hcj, hbe,
          fun jj hlt hj2 hspec => by
            have := hmax jj hlt (by omega)
            rw [(bosUpCond_iff _ _ _).mpr hspec] at this
            exact absurd this (by simp)⟩
      · rintro ⟨j, hj1, hji, hcj, hbe, hmax⟩
        exact ⟨j, hj1, by omega, (bosUpCond_iff _ _ _).mpr hcj, hbe,
          fun jj hlt hj2 => by
            cases hcc : bosUpCond hb swing_lows jj with
            | false => rfl
            | true => exact absurd ((bosUpCond_iff _ _ _).mp hcc) (hmax jj hlt (by omega))⟩
    · rw [← hhb, if_neg h2f]
      constructor
      · intro h
        exact absurd h (by simp)
      · rintro ⟨j, hj1, hji, -⟩
        omega
  · rw [lastBosUp, if_neg h2]
    constructor
    · intro h
      exact absurd h (by simp)
    · rintro ⟨j, hj1, hji, -⟩
      omega

/-- Downward version of `lastBosUp_eq_some_iff`. -/
theorem lastBosDown_eq_some_iff (swing_lows swing_highs : List (ℤ × ℚ))
    (range_low_idx : ℤ) (b : Bos) :
    lastBosDown swing_lows swing_highs range_low_idx = some b ↔
      ∃ j, 1 ≤ j ∧ j < (lowsBeforeRangeMin swing_lows range_low_idx).length ∧
        specBosDownCond (lowsBeforeRangeMin swing_lows range_low_idx) swing_highs j ∧
        b = mkBosDown (lowsBeforeRangeMin swing_lows range_low_idx) j ∧
        ∀ jj, j < jj → jj < (lowsBeforeRangeMin swing_lows range_low_idx).length →
          ¬ specBosDownCond (lowsBeforeRangeMin swing_lows range_low_idx) swing_highs jj := by
  set lb := lowsBeforeRangeMin swing_lows range_low_idx with hlb
  have hlen : lb.length ≤ swing_lows.length := by
    rw [hlb, lowsBeforeRangeMin]
    exact List.length_filter_le _ _
  by_cases h2 : 2 ≤ swing_lows.length
  · rw [lastBosDown, if_pos h2]
    by_cases h2f : 2 ≤ lb.length
    · rw [← hlb, if_pos h2f, bosDownLoop_eq_some_iff]
      constructor
      · rintro ⟨j, hj1, hji, hcj, hbe, hmax⟩
        exact ⟨j, hj1, by omega, (bosDownCond_iff _ _ _).mp hcj, hbe,
          fun jj hlt hj2 hspec => by
            have := hmax jj hlt (by omega)
            rw [(bosDownCond_iff _ _ _).mpr hspec] at this
            exact absurd this (by simp)⟩
      · rintro ⟨j, hj1, hji, hcj, hbe, hmax⟩
        exact ⟨j, hj1, by omega, (bosDownCond_iff _ _ _).mpr hcj, hbe,
          fun jj hlt hj2 => by
            cases hcc : bosDownCond lb swing_highs jj with
            | false => rfl
            | true => exact absurd ((bosDownCond_iff _ _ _).mp hcc) (hmax jj hlt (by omega))⟩
    · rw [← hlb, if_neg h2f]
      constructor
      · intro h
        exact absurd h (by simp)
      · rintro ⟨j, hj1, hji, -⟩
        omega
  · rw [lastBosDown, if_neg h2]
    constructor
    · intro h
      exact absurd h (by simp)
    · rintro ⟨j, hj1, hji, -⟩
      omega

/-- C4: the structure-break resolver filters swing highs strictly before the
range-high timestamp (lows before the range-low timestamp), takes as
candidate the most recent adjacent pair with `price(B) > price(A)` and an
intervening opposite swing (strictly between), returns the candidate with the
later timestamp when both exist, the existing one when only one exists, and
`none` (bias `Undetermined`) when neither does; on the claim's example the
result is a break up at `t2 = 105` with Bullish bias. -/
theorem C4_last_bos_spec (swing_highs swing_lows : List (ℤ × ℚ))
    (range_high_idx range_low_idx : ℤ) :
    (∀ b : Bos, lastBosUp swing_highs swing_lows range_high_idx = some b ↔
      ∃ j, 1 ≤ j ∧ j < (highsBeforeRangeMax swing_highs range_high_idx).length ∧
        specBosUpCond (highsBeforeRangeMax swing_highs range_high_idx) swing_lows j ∧
        b = mkBosUp (highsBeforeRangeMax swing_highs range_high_idx) j ∧
        ∀ jj, j < jj → jj < (highsBeforeRangeMax swing_highs range_high_idx).length →
          ¬ specBosUpCond (highsBeforeRangeMax swing_highs range_high_idx) swing_lows jj) ∧
    (∀ b : Bos, lastBosDown swing_lows swing_highs range_low_idx = some b ↔
      ∃ j, 1 ≤ j ∧ j < (lowsBeforeRangeMin swing_lows range_low_idx).length ∧
        specBosDownCond (lowsBeforeRangeMin swing_lows range_low_idx) swing_highs j ∧
        b = mkBosDown (lowsBeforeRangeMin swing_lows range_low_idx) j ∧
        ∀ jj, j < jj → jj < (lowsBeforeRangeMin swing_lows range_low_idx).length →
          ¬ specBosDownCond (lowsBeforeRangeMin swing_lows range_low_idx) swing_highs jj) ∧
    (∀ u d : Bos, lastBosUp swing_highs swing_lows range_high_idx = some u →
      lastBosDown swing_lows swing_highs range_low_idx = some d →
      (d.index < u.index →
        find_last_bos_in_range swing_highs swing_lows range_high_idx range_low_idx = some u) ∧
      (u.index < d.index →
        find_last_bos_in_range swing_highs swing_lows range_high_idx range_low_idx = some d)) ∧
    (∀ u : Bos, lastBosUp swing_highs swing_lows range_high_idx = some u →
      lastBosDown swing_lows swing_highs range_low_idx = none →
      find_last_bos_in_range swing_highs swing_lows range_high_idx range_low_idx = some u) ∧
    (∀ d : Bos, lastBosUp swing_highs swing_lows range_high_idx = none →
      lastBosDown swing_lows swing_highs range_low_idx = some d →
      find_last_bos_in_range swing_highs swing_lows range_high_idx range_low_idx = some d) ∧
    (lastBosUp swing_highs swing_lows range_high_idx = none →
      lastBosDown swing_lows swing_highs range_low_idx = none →
      find_last_bos_in_range swing_highs swing_lows range_high_idx range_low_idx = none ∧
      biasOf (find_last_bos_in_range swing_highs swing_lows range_high_idx range_low_idx) =
        Bias.Undetermined) ∧
    find_last_bos_in_range [(100, 50), (105, 55)] [(102, 48)] 106 106 =
      some ⟨BosType.BOS_Up, 105, 50, 55⟩ ∧
    biasOf (find_last_bos_in_range [(100, 50), (105, 55)] [(102, 48)] 106 106) =
      Bias.Bullish := by
  refine ⟨lastBosUp_eq_some_iff swing_highs swing_lows range_high_idx,
    lastBosDown_eq_some_iff swing_lows swing_highs range_low_idx,
    ?_, ?_, ?_, ?_, by decide, by decide⟩
  · intro u d hu hd
    constructor
    · intro hlt
      simp only [find_last_bos_in_range, hu, hd]
      rw [if_pos hlt]
    · intro hlt
      simp only [find_last_bos_in_range, hu, hd]
      rw [if_neg (by omega)]
  · intro u hu hd
    simp only [find_last_bos_in_range, hu, hd]
  · intro d hu hd
    simp only [find_last_bos_in_range, hu, hd]
  · intro hu hd
    simp only [find_last_bos_in_range, hu, hd, biasOf]
    exact ⟨trivial, trivial⟩

/-! ## C5: the POI finder -/

/-- Slicing a single element: `df.iloc[i:i+1]` is the one-candle list. -/
theorem take_drop_singleton (df : List Candle) (i : ℕ) (hi : i < df.length) :
    (df.take (i + 1)).drop i = [df.getD i default] := by
  rw [List.drop_take, show i + 1 - i = 1 by omega]
  rw [List.drop_eq_getElem_cons hi]
  rw [List.take_succ_cons, List.take_zero]
  rw [List.getD_eq_getElem df default hi]

/-- For an OB candidate at a position with at least two candles after it, the
liquidity-sweep check of the source is the claim's condition: at least
`lookback = 5` candles exist before the candidate, and the candidate's
extreme exceeds the corresponding extreme of the 5 candles immediately
preceding it (maximum high for a Bearish candidate, minimum low for a
Bullish one). -/
theorem check_liquidity_sweep_ob_iff (df : List Candle) (t : ℤ) (bias : Bias) (i : ℕ)
    (hi : i + 2 ≤ df.length) :
    check_liquidity_sweep ⟨t, PoiKind.OB, some bias, none, none, none⟩ df i 5 = true ↔
      (5 ≤ i ∧
        ((bias = Bias.Bearish ∧
            colMax (·.High) ((df.take i).drop (i - 5)) < (df.getD i default).High) ∨
         (bias = Bias.Bullish ∧
            (df.getD i default).Low < colMin (·.Low) ((df.take i).drop (i - 5))))) := by
  rw [check_liquidity_sweep]
  by_cases h5 : i < 5
  · rw [if_pos h5]
    simp only [Bool.false_eq_true, false_iff]
    rintro ⟨h, -⟩
    omega
  · rw [if_neg h5]
    push_neg at h5
    simp only
    rw [if_neg (by omega)]
    rw [show i - 1 + 1 = i by omega]
    have hwlen : ((df.take i).drop (i - 5)).length = 5 := by
      rw [List.length_drop, List.length_take]
      omega
    rw [if_neg (by
      intro hempty
      rw [List.isEmpty_iff] at hempty
      rw [hempty] at hwlen
      simp at hwlen)]
    simp only [if_true]
    rw [take_drop_singleton df i (by omega)]
    have hform : ¬ ([df.getD i default].isEmpty = true) := by simp
    rw [if_neg hform]
    cases bias with
    | Bearish =>
      simp only [gt_iff_lt, decide_eq_true_eq, colMax]
      constructor
      · intro h
        exact ⟨h5, Or.inl ⟨by trivial, by simpa using h⟩⟩
      · rintro ⟨-, h⟩
        rcases h with ⟨-, h⟩ | ⟨hcon, -⟩
        · simpa using h
        · exact absurd hcon (by simp)
    | Bullish =>
      simp only [decide_eq_true_eq, colMin]
      constructor
      · intro h
        exact ⟨h5, Or.inr ⟨by trivial, by simpa using h⟩⟩
      · rintro ⟨-, h⟩
        rcases h with ⟨hcon, -⟩ | ⟨-, h⟩
        · exact absurd hcon (by simp)
        · simpa using h
    | Undetermined =>
      simp only [Bool.false_eq_true, false_iff]
      rintro ⟨-, h⟩
      rcases h with ⟨hcon, -⟩ | ⟨hcon, -⟩ <;> exact absurd hcon (by simp)

/-- The four acceptance conditions as claim C5 words them: (1) candle colour
opposite to the bias, (2) the candle's `[low, high]` fully inside the
premium half `[eq, high]` for Bearish bias / discount half `[low, eq]` for
Bullish bias, (3) a matching-direction gap formed among the next few candles
after it, and (4) the liquidity-sweep test against the preceding window. -/
def specPoiCond (df : List Candle) (tr : TrRange) (bias : Bias) (fvgs : List Fvg) (i : ℕ) : Prop :=
  ((bias = Bias.Bearish ∧ (df.getD i default).Open < (df.getD i default).Close) ∨
   (bias = Bias.Bullish ∧ (df.getD i default).Close < (df.getD i default).Open)) ∧
  ((if bias = Bias.Bearish then tr.eq else tr.low) ≤ (df.getD i default).Low ∧
   (df.getD i default).High ≤ (if bias = Bias.Bearish then tr.high else tr.eq)) ∧
  (∃ fvg ∈ fvgs, fvg.type = bias ∧ fvg.index ∈ fvgCheckIndices df i) ∧
  (5 ≤ i ∧
    ((bias = Bias.Bearish ∧
        colMax (·.High) ((df.take i).drop (i - 5)) < (df.getD i default).High) ∨
     (bias = Bias.Bullish ∧
        (df.getD i default).Low < colMin (·.Low) ((df.take i).drop (i - 5)))))

/-- A matching-direction gap among the checked indices, Bearish form. -/
theorem fvg_found_iff_bearish (df : List Candle) (fvgs : List Fvg) (i : ℕ) :
    (∃ fvg ∈ relevantFvgs Bias.Bearish fvgs, fvg.index ∈ fvgCheckIndices df i) ↔
      ∃ fvg ∈ fvgs, fvg.type = Bias.Bearish ∧ fvg.index ∈ fvgCheckIndices df i := by
  constructor
  · rintro ⟨fvg, hmem, hin⟩
    rw [relevantFvgs, List.mem_filter] at hmem
    obtain ⟨hm, hd⟩ := hmem
    simp only [decide_eq_true_eq] at hd
    rcases hd with ⟨hcon, -⟩ | ⟨-, hty⟩
    · exact absurd hcon (by simp)
    · exact ⟨fvg, hm, hty, hin⟩
  · rintro ⟨fvg, hm, hty, hin⟩
    refine ⟨fvg, ?_, hin⟩
    rw [relevantFvgs, List.mem_filter]
    exact ⟨hm, by simp [hty]⟩

/-- A matching-direction gap among the checked indices, Bullish form. -/
theorem fvg_found_iff_bullish (df : List Candle) (fvgs : List Fvg) (i : ℕ) :
    (∃ fvg ∈ relevantFvgs Bias.Bullish fvgs, fvg.index ∈ fvgCheckIndices df i) ↔
      ∃ fvg ∈ fvgs, fvg.type = Bias.Bullish ∧ fvg.index ∈ fvgCheckIndices df i := by
  constructor
  · rintro ⟨fvg, hmem, hin⟩
    rw [relevantFvgs, List.mem_filter] at hmem
    obtain ⟨hm, hd⟩ := hmem
    simp only [decide_eq_true_eq] at hd
    rcases hd with ⟨-, hty⟩ | ⟨hcon, -⟩
    · exact ⟨fvg, hm, hty, hin⟩
    · exact absurd hcon (by simp)
  · rintro ⟨fvg, hm, hty, hin⟩
    refine ⟨fvg, ?_, hin⟩
    rw [relevantFvgs, List.mem_filter]
    exact ⟨hm, by simp [hty]⟩

/-- The source's boolean scan-body test agrees with the claim's wording at
every position with at least two candles after it. -/
theorem poiCond_iff (df : List Candle) (tr : TrRange) (bias : Bias) (fvgs : List Fvg)
    (i : ℕ) (hi : i + 2 ≤ df.length) :
    poiCond df tr bias fvgs i = true ↔ specPoiCond df tr bias fvgs i := by
  rw [poiCond]
  simp only [Bool.and_eq_true, Bool.or_eq_true, decide_eq_true_eq]
  rw [check_liquidity_sweep_ob_iff df (timeAt df i) bias i hi]
  rw [specPoiCond]
  have hfvg : ((relevantFvgs bias fvgs).any fun fvg =>
      (fvgCheckIndices df i).contains fvg.index) = true ↔
      ∃ fvg ∈ relevantFvgs bias fvgs, fvg.index ∈ fvgCheckIndices df i := by
    rw [List.any_eq_true]
    constructor
    · rintro ⟨fvg, hmem, hc⟩
      exact ⟨fvg, hmem, List.elem_iff.mp hc⟩
    · rintro ⟨fvg, hmem, hc⟩
      exact ⟨fvg, hmem, List.elem_iff.mpr hc⟩
  rw [hfvg]
  cases bias with
  | Bearish =>
    rw [fvg_found_iff_bearish]
    simp only [reduceCtorEq, eq_self_iff_true, if_true, true_and, and_true, false_and,
      and_false, false_or, or_false]
    tauto
  | Bullish =>
    rw [fvg_found_iff_bullish]
    simp only [reduceCtorEq, eq_self_iff_true, if_false, true_and, and_true, false_and,
      and_false, false_or, or_false]
    tauto
  | Undetermined =>
    simp only [reduceCtorEq, false_and, or_self, and_false, false_or]

/-- The descending POI scan returns exactly the POI at the greatest position
in `(end_iloc, i]`, `≥ 1`, passing the scan-body test. -/
theorem poiLoop_eq_some_iff (df : List Candle) (tr : TrRange) (bias : Bias)
    (fvgs : List Fvg) (end_iloc : ℕ) (i : ℕ) (p : Poi) :
    poiLoop df tr bias fvgs end_iloc i = some p ↔
      ∃ j, 1 ≤ j ∧ end_iloc < j ∧ j ≤ i ∧ poiCond df tr bias fvgs j = true ∧
        p = mkPoi df bias fvgs j ∧
        ∀ jj, j < jj → jj ≤ i → poiCond df tr bias fvgs jj = false := by
  induction i with
  | zero =>
    simp only [poiLoop]
    constructor
    · intro h
      exact absurd h (by simp)
    · rintro ⟨j, hj1, -, hj0, -⟩
      omega
  | succ i ih =>
    rw [poiLoop]
    by_cases hend : i + 1 ≤ end_iloc
    · rw [if_pos hend]
      constructor
      · intro h
        exact absurd h (by simp)
      · rintro ⟨j, hj1, hje, hji, -⟩
        omega
    · rw [if_neg hend]
      cases hcb : poiCond df tr bias fvgs (i + 1) with
      | true =>
        rw [if_pos rfl]
        constructor
        · intro h
          exact ⟨i + 1, by omega, by omega, le_refl _, hcb, (Option.some.inj h).symm,
            fun jj h1 h2 => (by omega : False).elim⟩
        · rintro ⟨j, hj1, hje, hji, hcj, hbe, hmax⟩
          have hj : j = i + 1 := by
            by_contra hne
            have hf := hmax (i + 1) (by omega) (by omega)
            rw [hcb] at hf
            exact absurd hf (by simp)
          subst hj
          rw [hbe]
      | false =>
        rw [if_neg (by simp)]
        rw [ih]
        constructor
        · rintro ⟨j, hj1, hje, hji, hcj, hbe, hmax⟩
          refine ⟨j, hj1, hje, by omega, hcj, hbe, fun jj h1 h2 => ?_⟩
          rcases Nat.lt_or_ge jj (i + 1) with hlt | hge
          · exact hmax jj h1 (by omega)
          · have hj2 : jj = i + 1 := by omega
            rw [hj2]
            exact hcb
        · rintro ⟨j, hj1, hje, hji, hcj, hbe, hmax⟩
          have hjle : j ≤ i := by
            rcases Nat.eq_or_lt_of_le hji with he | hlt
            · rw [he] at hcj
              rw [hcj] at hcb
              exact absurd hcb (by simp)
            · omega
          exact ⟨j, hj1, hje, hjle, hcj, hbe, fun jj h1 h2 => hmax jj h1 (by omega)⟩

/-- The descending POI scan returns `none` exactly when no position in its
window passes the scan-body test. -/
theorem poiLoop_eq_none_iff (df : List Candle) (tr : TrRange) (bias : Bias)
    (fvgs : List Fvg) (end_iloc : ℕ) (i : ℕ) :
    poiLoop df tr bias fvgs end_iloc i = none ↔
      ∀ j, 1 ≤ j → end_iloc < j → j ≤ i → poiCond df tr bias fvgs j = false := by
  induction i with
  | zero =>
    simp only [poiLoop, true_iff]
    intro j hj1 hje hj0
    omega
  | succ i ih =>
    rw [poiLoop]
    by_cases hend : i + 1 ≤ end_iloc
    · rw [if_pos hend]
      simp only [true_iff]
      intro j hj1 hje hji
      omega
    · rw [if_neg hend]
      cases hcb : poiCond df tr bias fvgs (i + 1) with
      | true =>
        rw [if_pos rfl]
        constructor
        · intro h
          exact absurd h (by simp)
        · intro hall
          have hfa := hall (i + 1) (by omega) (by omega) (le_refl _)
          rw [hcb] at hfa
          exact absurd hfa (by simp)
      | false =>
        rw [if_neg (by simp)]
        rw [ih]
        constructor
        · intro hall j hj1 hje hji
          rcases Nat.lt_or_ge j (i + 1) with hlt | hge
          · exact hall j hj1 hje (by omega)
          · have hj2 : j = i + 1 := by omega
            rw [hj2]
            exact hcb
        · intro hall j hj1 hje hji
          exact hall j hj1 hje (by omega)

/-- C5: the POI finder searches only the bias's half of the trading range
(premium `[eq, high]` for Bearish, discount `[low, eq]` for Bullish, folded
into `specPoiCond`), scans backward from the second-to-last candle over the
last-96-candle window, returns immediately the first (most recent) candle
satisfying all four conditions — older candidates are never compared — and
returns `none` exactly when no scanned candle qualifies. -/
theorem C5_poi_finder_spec (df : List Candle) (tr : TrRange) (bias : Bias) (fvgs : List Fvg) :
    (∀ p : Poi, find_m15_poi_in_range df tr bias fvgs = some p ↔
      ∃ i, 1 ≤ i ∧ df.length - 96 - 1 < i ∧ i ≤ df.length - 2 ∧
        specPoiCond df tr bias fvgs i ∧ p = mkPoi df bias fvgs i ∧
        ∀ ii, i < ii → ii ≤ df.length - 2 → ¬ specPoiCond df tr bias fvgs ii) ∧
    (find_m15_poi_in_range df tr bias fvgs = none ↔
      ∀ i, 1 ≤ i → df.length - 96 - 1 < i → i ≤ df.length - 2 →
        ¬ specPoiCond df tr bias fvgs i) := by
  have hnospec : bias = Bias.Undetermined → ∀ i, ¬ specPoiCond df tr bias fvgs i := by
    rintro rfl i ⟨hcol, -⟩
    rcases hcol with ⟨hcon, -⟩ | ⟨hcon, -⟩ <;> exact absurd hcon (by simp)
  by_cases hb : bias = Bias.Undetermined
  · rw [find_m15_poi_in_range, if_pos hb]
    constructor
    · intro p
      constructor
      · intro h
        exact absurd h (by simp)
      · rintro ⟨i, -, -, -, hspec, -⟩
        exact absurd hspec (hnospec hb i)
    · constructor
      · intro _ i _ _ _
        exact hnospec hb i
      · intro _
        rfl
  · rw [find_m15_poi_in_range, if_neg hb]
    constructor
    · intro p
      rw [poiLoop_eq_some_iff]
      constructor
      · rintro ⟨j, hj1, hje, hji, hcj, hbe, hmax⟩
        exact ⟨j, hj1, hje, hji, (poiCond_iff df tr bias fvgs j (by omega)).mp hcj, hbe,
          fun ii h1 h2 hspec => by
            have hf := hmax ii h1 h2
            rw [(poiCond_iff df tr bias fvgs ii (by omega)).mpr hspec] at hf
            exact absurd hf (by simp)⟩
      · rintro ⟨j, hj1, hje, hji, hspec, hbe, hmax⟩
        refine ⟨j, hj1, hje, hji, (poiCond_iff df tr bias fvgs j (by omega)).mpr hspec, hbe,
          fun ii h1 h2 => ?_⟩
        cases hcc : poiCond df tr bias fvgs ii with
        | false => rfl
        | true =>
          exact absurd ((poiCond_iff df tr bias fvgs ii (by omega)).mp hcc)
            (hmax ii h1 h2)
    · rw [poiLoop_eq_none_iff]
      constructor
      · intro hall i h1 h2 h3 hspec
        have hf := hall i h1 h2 h3
        rw [(poiCond_iff df tr bias fvgs i (by omega)).mpr hspec] at hf
        exact absurd hf (by simp)
      · intro hall j h1 h2 h3
        cases hcc : poiCond df tr bias fvgs j with
        | false => rfl
        | true =>
          exact absurd ((poiCond_iff df tr bias fvgs j (by omega)).mp hcc)
            (hall j h1 h2 h3)

/-! ## C9: POI bound invariant -/

/-- C9: on a series satisfying the OHLC invariant, every POI the finder
returns satisfies `low ≤ level_50 ≤ high`, for both bias directions, even
though the bounds come from different candle fields per direction. -/
theorem C9_poi_bounds_invariant (df : List Candle) (tr : TrRange) (bias : Bias)
    (fvgs : List Fvg)
    (hwf : ∀ c ∈ df, max c.Open c.Close ≤ c.High ∧ c.Low ≤ min c.Open c.Close) :
    ∀ p : Poi, find_m15_poi_in_range df tr bias fvgs = some p →
      p.low ≤ p.level_50 ∧ p.level_50 ≤ p.high := by
  intro p hp
  rw [find_m15_poi_in_range] at hp
  by_cases hb : bias = Bias.Undetermined
  · rw [if_pos hb] at hp
    exact absurd hp (by simp)
  · rw [if_neg hb] at hp
    rw [poiLoop_eq_some_iff] at hp
    obtain ⟨j, hj1, hje, hji, hcj, hbe, -⟩ := hp
    have hjlen : j < df.length := by omega
    have hc := hwf (df.getD j default) (getD_mem df j hjlen)
    have hOH : (df.getD j default).Open ≤ (df.getD j default).High :=
      le_trans (le_max_left _ _) hc.1
    have hLO : (df.getD j default).Low ≤ (df.getD j default).Open :=
      le_trans hc.2 (min_le_left _ _)
    subst hbe
    cases bias with
    | Undetermined => exact absurd rfl hb
    | Bearish =>
      simp only [mkPoi, reduceCtorEq, if_true, eq_self_iff_true]
      simp only [List.getD_eq_getElem?_getD] at hOH hLO
      constructor <;> simp <;> linarith
    | Bullish =>
      simp only [mkPoi, reduceCtorEq, if_false, eq_self_iff_true]
      simp only [List.getD_eq_getElem?_getD] at hOH hLO
      constructor <;> simp <;> linarith

/-- A concrete Bearish setup: eight quiet candles, a sweeping bullish candle
at position 8 inside the premium half of the range `[0, 100]`, one candle
after it, and a Bearish gap formed at that ninth candle's timestamp. -/
def wdf : List Candle :=
  [⟨0, 51, 52, 50, 51⟩, ⟨1, 51, 52, 50, 51⟩, ⟨2, 51, 52, 50, 51⟩, ⟨3, 51, 52, 50, 51⟩,
   ⟨4, 51, 52, 50, 51⟩, ⟨5, 51, 52, 50, 51⟩, ⟨6, 51, 52, 50, 51⟩, ⟨7, 51, 52, 50, 51⟩,
   ⟨8, 60, 75, 55, 70⟩, ⟨9, 51, 52, 50, 51⟩]

/-- The trading range for the concrete setup. -/
def wtr : TrRange := ⟨0, 100, 50⟩

/-- The associated Bearish gap for the concrete setup. -/
def wfvg : Fvg := ⟨9, 2, 1, Bias.Bearish, 3 / 2⟩

/-- C9 witness: on the concrete Bearish setup the finder returns a POI and
its bounds satisfy `low ≤ level_50 ≤ high`. -/
theorem C9_poi_bounds_invariant_witness :
    ∃ p : Poi, find_m15_poi_in_range wdf wtr Bias.Bearish [wfvg] = some p ∧
      p.low ≤ p.level_50 ∧ p.level_50 ≤ p.high :=
  ⟨mkPoi wdf Bias.Bearish [wfvg] 8, rfl,
    C9_poi_bounds_invariant wdf wtr Bias.Bearish [wfvg] (by decide)
      (mkPoi wdf Bias.Bearish [wfvg] 8) rfl⟩

/-! ## C6: the per-cycle arrival check -/

/-- The Bullish zone `[100, 102]` of the claim's example. -/
def exZonePoi : Poi := ⟨0, 102, 100, 101, Bias.Bullish, none⟩

/-- The example zone, tracked and not yet alerted. -/
def exState0 : ZoneMap := [(0, ⟨exZonePoi, false⟩)]

/-- A quote with ask 101 (inside the zone). -/
def exQ101 : Quote := ⟨101, 101⟩

/-- A quote with ask 105 (outside the zone). -/
def exQ105 : Quote := ⟨105, 105⟩

/-- C6: the arrival check selects the ask price for Bullish zones and the bid
price for Bearish zones, tests `low ≤ price ≤ high`, sets the flag and emits
on entry with a clear flag, silently resets the flag on exit with a set flag
and otherwise changes nothing; consequently on the Bullish zone `[100, 102]`
the quote sequence ask 101, ask 105, ask 101 produces an arrival event, a
silent re-arm, and a second arrival event. -/
theorem C6_arrival_check_spec (z : TrackedZone) (q : Quote) :
    (∀ p : ℚ, ((z.poi.direction = Bias.Bullish ∧ p = q.ask) ∨
               (z.poi.direction = Bias.Bearish ∧ p = q.bid)) →
      ((z.poi.low ≤ p ∧ p ≤ z.poi.high ∧ z.arrival_alerted = false) →
        checkArrival z q = ({ z with arrival_alerted := true }, true)) ∧
      ((¬(z.poi.low ≤ p ∧ p ≤ z.poi.high) ∧ z.arrival_alerted = true) →
        checkArrival z q = ({ z with arrival_alerted := false }, false)) ∧
      (((z.poi.low ≤ p ∧ p ≤ z.poi.high ∧ z.arrival_alerted = true) ∨
        (¬(z.poi.low ≤ p ∧ p ≤ z.poi.high) ∧ z.arrival_alerted = false)) →
        checkArrival z q = (z, false))) ∧
    arrivalStep exState0 exQ101 = ([(0, ⟨exZonePoi, true⟩)], [Event.arrival 0]) ∧
    arrivalStep [(0, ⟨exZonePoi, true⟩)] exQ105 = ([(0, ⟨exZonePoi, false⟩)], []) ∧
    arrivalStep [(0, ⟨exZonePoi, false⟩)] exQ101 = ([(0, ⟨exZonePoi, true⟩)], [Event.arrival 0]) := by
  refine ⟨?_, by decide, by decide, by decide⟩
  intro p hp
  have hcp : (if z.poi.direction = Bias.Bullish then q.ask else q.bid) = p := by
    rcases hp with ⟨hd, rfl⟩ | ⟨hd, rfl⟩
    · rw [if_pos hd]
    · rw [if_neg (by rw [hd]; simp)]
  refine ⟨?_, ?_, ?_⟩
  · rintro ⟨h1, h2, h3⟩
    rw [checkArrival]
    simp only [hcp]
    simp [h1, h2, h3]
  · rintro ⟨hnot, halert⟩
    have hins : (decide (z.poi.low ≤ p) && decide (p ≤ z.poi.high)) = false := by
      by_cases h1 : z.poi.low ≤ p
      · by_cases h2 : p ≤ z.poi.high
        · exact absurd ⟨h1, h2⟩ hnot
        · simp [h2]
      · simp [h1]
    rw [checkArrival]
    simp only [hcp]
    simp [hins, halert]
  · rintro (⟨h1, h2, h3⟩ | ⟨hnot, h3⟩)
    · rw [checkArrival]
      simp only [hcp]
      simp [h1, h2, h3]
    · have hins : (decide (z.poi.low ≤ p) && decide (p ≤ z.poi.high)) = false := by
        by_cases h1 : z.poi.low ≤ p
        · by_cases h2 : p ≤ z.poi.high
          · exact absurd ⟨h1, h2⟩ hnot
          · simp [h2]
        · simp [h1]
      rw [checkArrival]
      simp only [hcp]
      simp [hins, h3]

/-! ## C7: the diff step of the lifecycle update -/

/-- Assignment with a fresh key appends the entry. -/
theorem insertZ_of_not_mem (st : ZoneMap) (k : ℤ) (z : TrackedZone)
    (h : k ∉ keysOf st) : insertZ st k z = st ++ [(k, z)] := by
  induction st with
  | nil => rfl
  | cons e rest ih =>
    simp only [keysOf, List.map_cons, List.mem_cons, not_or] at h
    rw [insertZ, if_neg (by exact fun he => h.1 he.symm)]
    rw [ih (by simpa [keysOf] using h.2)]
    rfl

/-- Dict lookup across an append: a key of the left part resolves there. -/
theorem lookupZ_append_left (a b : ZoneMap) (k : ℤ) (h : k ∈ keysOf a) :
    lookupZ (a ++ b) k = lookupZ a k := by
  induction a with
  | nil => simp [keysOf] at h
  | cons e rest ih =>
    rw [List.cons_append, lookupZ, lookupZ]
    by_cases he : e.1 = k
    · rw [if_pos he, if_pos he]
    · rw [if_neg he, if_neg he]
      apply ih
      simp only [keysOf, List.map_cons, List.mem_cons] at h
      rcases h with h | h
      · exact absurd h.symm he
      · exact h

/-- Dict lookup across an append: a key absent on the left resolves right. -/
theorem lookupZ_append_right (a b : ZoneMap) (k : ℤ) (h : k ∉ keysOf a) :
    lookupZ (a ++ b) k = lookupZ b k := by
  induction a with
  | nil => rfl
  | cons e rest ih =>
    simp only [keysOf, List.map_cons, List.mem_cons, not_or] at h
    rw [List.cons_append, lookupZ, if_neg (by exact fun he => h.1 he.symm)]
    exact ih (by simpa [keysOf] using h.2)

/-- A key absent from the mapping looks up to `none`. -/
theorem lookupZ_eq_none (st : ZoneMap) (k : ℤ) (h : k ∉ keysOf st) :
    lookupZ st k = none := by
  induction st with
  | nil => rfl
  | cons e rest ih =>
    simp only [keysOf, List.map_cons, List.mem_cons, not_or] at h
    rw [lookupZ, if_neg (by exact fun he => h.1 he.symm)]
    exact ih (by simpa [keysOf] using h.2)

/-- Lookup through a key-determined filter. -/
theorem lookupZ_filter (st : ZoneMap) (p : ℤ → Bool) (k : ℤ) :
    lookupZ (st.filter fun e => p e.1) k = if p k then lookupZ st k else none := by
  induction st with
  | nil =>
    rw [List.filter_nil]
    split <;> rfl
  | cons e rest ih =>
    rw [List.filter_cons]
    by_cases he : e.1 = k
    · subst he
      by_cases hp : p e.1 = true
      · rw [if_pos hp, if_pos hp]
        rw [lookupZ, if_pos rfl, lookupZ, if_pos rfl]
      · rw [if_neg hp, ih, if_neg hp, if_neg hp]
    · by_cases hp : p e.1 = true
      · rw [if_pos hp]
        rw [lookupZ, if_neg he, ih]
        by_cases hk : p k = true
        · rw [if_pos hk, if_pos hk, lookupZ, if_neg he]
        · rw [if_neg hk, if_neg hk]
      · rw [if_neg hp, ih]
        by_cases hk : p k = true
        · rw [if_pos hk, if_pos hk, lookupZ, if_neg he]
        · rw [if_neg hk, if_neg hk]

/-- Key membership is lookup success. -/
theorem mem_keysOf_iff_lookup (st : ZoneMap) (k : ℤ) :
    k ∈ keysOf st ↔ lookupZ st k ≠ none := by
  induction st with
  | nil => simp [keysOf, lookupZ]
  | cons e rest ih =>
    rw [keysOf, List.map_cons, List.mem_cons, lookupZ]
    by_cases he : e.1 = k
    · simp [he]
    · rw [if_neg he]
      constructor
      · rintro (h | h)
        · exact absurd h.symm he
        · exact ih.mp h
      · intro h
        exact Or.inr (ih.mpr h)

/-- Lookup in the freshly-built entry list of new candidates. -/
theorem lookupZ_entries (l : List Poi) (hnd : (l.map Poi.index).Nodup) (c : Poi)
    (hc : c ∈ l) :
    lookupZ (l.map fun c => (c.index, (⟨c, false⟩ : TrackedZone))) c.index =
      some ⟨c, false⟩ := by
  induction l with
  | nil => simp at hc
  | cons d rest ih =>
    rw [List.map_cons] at hnd ⊢
    rw [List.nodup_cons] at hnd
    rcases List.mem_cons.mp hc with rfl | hm
    · rw [lookupZ, if_pos rfl]
    · rw [lookupZ, if_neg (by
        intro he
        exact hnd.1 (he ▸ List.mem_map_of_mem Poi.index hm))]
      exact ih hnd.2 hm

/-- The keys of the freshly-built entry list are the candidate indices. -/
theorem keysOf_entries (l : List Poi) :
    keysOf (l.map fun c => (c.index, (⟨c, false⟩ : TrackedZone))) = l.map Poi.index := by
  rw [keysOf, List.map_map]
  rfl

/-- Closed form of the candidate-processing loop: with candidate indices
distinct and new indices fresh for the accumulator, the loop appends one
fresh entry and queues one `NEW_POI_M15` event per candidate index absent
from the snapshot. -/
theorem diffLoop_spec (ca : List ℤ) :
    ∀ (cs : List Poi) (st : ZoneMap) (evs : List Event),
      (∀ c ∈ cs, c.index ∉ ca → c.index ∉ keysOf st) →
      (cs.map Poi.index).Nodup →
      diffLoop ca st evs cs =
        (st ++ (cs.filter fun c => decide (c.index ∉ ca)).map
            fun c => (c.index, (⟨c, false⟩ : TrackedZone)),
         evs ++ (cs.filter fun c => decide (c.index ∉ ca)).map
            fun c => Event.newZone c.index)
  | [], st, evs, _, _ => by simp [diffLoop]
  | c :: rest, st, evs, hdisj, hnd => by
    rw [List.map_cons, List.nodup_cons] at hnd
    rw [diffLoop, List.filter_cons]
    by_cases hm : c.index ∈ ca
    · rw [if_pos hm, if_neg (by simp [hm])]
      exact diffLoop_spec ca rest st evs (fun c' hc' => hdisj c' (List.mem_cons_of_mem c hc'))
        hnd.2
    · rw [if_neg hm, if_pos (by simp [hm])]
      rw [insertZ_of_not_mem st c.index ⟨c, false⟩ (hdisj c (List.mem_cons_self c rest) hm)]
      have hrec := diffLoop_spec ca rest
        (st ++ [(c.index, (⟨c, false⟩ : TrackedZone))]) (evs ++ [Event.newZone c.index])
        (fun c' hc' hnc' => by
          have h1 : c'.index ∉ keysOf st := hdisj c' (List.mem_cons_of_mem c hc') hnc'
          have h2 : c'.index ≠ c.index := by
            intro he
            exact hnd.1 (he ▸ List.mem_map_of_mem Poi.index hc')
          rw [keysOf, List.map_append]
          simp only [List.mem_append, not_or]
          constructor
          · simpa [keysOf] using h1
          · simp [h2])
        hnd.2
      rw [hrec]
      simp only [List.map_cons, List.append_assoc, List.singleton_append]

/-- Arrival events only ever name keys of the mapping they were checked on. -/
theorem arrivalStep_events (st : ZoneMap) (q : Quote) :
    ∀ e ∈ (arrivalStep st q).2, ∃ k, e = Event.arrival k ∧ k ∈ keysOf st := by
  induction st with
  | nil =>
    intro e he
    simp [arrivalStep] at he
  | cons kz rest ih =>
    intro e he
    rw [arrivalStep] at he
    simp only [List.mem_append] at he
    rcases he with he | he
    · refine ⟨kz.1, ?_, by simp [keysOf]⟩
      split at he
      · simpa using he
      · simp at he
    · obtain ⟨k, hek, hkm⟩ := ih e he
      exact ⟨k, hek, by simp [keysOf] at hkm ⊢; exact Or.inr hkm⟩

/-- C7: the diff step adds every candidate whose formation index is not yet
tracked as a fresh zone with `arrival_alerted = false` and queues a
`NEW_POI_M15` event for it, leaves already-tracked zones (their flag
included) untouched, silently deletes every tracked zone whose index is
absent from the candidates, leaves the tracked key set equal to the candidate
index set, and a removed zone can produce no arrival event in a later check. -/
theorem C7_diff_step_spec (st : ZoneMap) (cands : List Poi)
    (hcands : (cands.map Poi.index).Nodup) :
    (∀ c ∈ cands, c.index ∉ keysOf st →
      lookupZ (diffStep st cands).1 c.index = some ⟨c, false⟩ ∧
      Event.newZone c.index ∈ (diffStep st cands).2) ∧
    (∀ k, k ∈ keysOf st → k ∈ cands.map Poi.index →
      lookupZ (diffStep st cands).1 k = lookupZ st k) ∧
    (∀ k, k ∉ cands.map Poi.index →
      lookupZ (diffStep st cands).1 k = none ∧
      Event.newZone k ∉ (diffStep st cands).2) ∧
    (∀ k, k ∈ keysOf (diffStep st cands).1 ↔ k ∈ cands.map Poi.index) ∧
    (∀ e ∈ (diffStep st cands).2,
      ∃ c ∈ cands, c.index ∉ keysOf st ∧ e = Event.newZone c.index) ∧
    (∀ q : Quote, ∀ e ∈ (arrivalStep (diffStep st cands).1 q).2,
      ∃ k, e = Event.arrival k ∧ k ∈ cands.map Poi.index) := by
  have hform := diffLoop_spec (keysOf st) cands st [] (fun c _ h => h) hcands
  have hds1 : (diffStep st cands).1 =
      (st ++ (cands.filter fun c => decide (c.index ∉ keysOf st)).map
          (fun c => (c.index, (⟨c, false⟩ : TrackedZone)))).filter
        (fun e => !(decide (e.1 ∈ keysOf st) && !decide (e.1 ∈ cands.map Poi.index))) := by
    simp only [diffStep, hform, List.nil_append]
  have hds2 : (diffStep st cands).2 =
      (cands.filter fun c => decide (c.index ∉ keysOf st)).map
          (fun c => Event.newZone c.index) := by
    simp only [diffStep, hform, List.nil_append]
  have hsub : ((cands.filter fun c => decide (c.index ∉ keysOf st)).map Poi.index).Sublist
      (cands.map Poi.index) := List.Sublist.map Poi.index (List.filter_sublist cands)
  have hfnd : ((cands.filter fun c => decide (c.index ∉ keysOf st)).map Poi.index).Nodup :=
    List.Nodup.sublist hsub hcands
  have ha : ∀ c ∈ cands, c.index ∉ keysOf st →
      lookupZ (diffStep st cands).1 c.index = some ⟨c, false⟩ ∧
      Event.newZone c.index ∈ (diffStep st cands).2 := by
    intro c hc hnm
    have hcf : c ∈ cands.filter fun c => decide (c.index ∉ keysOf st) :=
      List.mem_filter.mpr ⟨hc, by simp [hnm]⟩
    constructor
    · rw [hds1]
      rw [lookupZ_filter _ (fun k => !(decide (k ∈ keysOf st) && !decide (k ∈ cands.map Poi.index))) _, if_pos (by simp [hnm])]
      rw [lookupZ_append_right _ _ _ hnm]
      exact lookupZ_entries _ hfnd c hcf
    · rw [hds2]
      exact List.mem_map.mpr ⟨c, hcf, rfl⟩
  have hb : ∀ k, k ∈ keysOf st → k ∈ cands.map Poi.index →
      lookupZ (diffStep st cands).1 k = lookupZ st k := by
    intro k hk1 hk2
    rw [hds1]
    rw [lookupZ_filter _ (fun k => !(decide (k ∈ keysOf st) && !decide (k ∈ cands.map Poi.index))) _, if_pos (by simp [hk1, hk2])]
    exact lookupZ_append_left _ _ _ hk1
  have hc2 : ∀ k, k ∉ cands.map Poi.index →
      lookupZ (diffStep st cands).1 k = none ∧
      Event.newZone k ∉ (diffStep st cands).2 := by
    intro k hkf
    constructor
    · rw [hds1]
      by_cases hk : k ∈ keysOf st
      · rw [lookupZ_filter _ (fun k => !(decide (k ∈ keysOf st) && !decide (k ∈ cands.map Poi.index))) _, if_neg (by simp [hk, hkf])]
      · rw [lookupZ_filter _ (fun k => !(decide (k ∈ keysOf st) && !decide (k ∈ cands.map Poi.index))) _, if_pos (by simp [hk])]
        rw [lookupZ_append_right _ _ _ hk]
        apply lookupZ_eq_none
        rw [keysOf_entries]
        intro hmem
        exact hkf (hsub.subset hmem)
    · rw [hds2]
      intro hmem
      obtain ⟨c, hcf, heq⟩ := List.mem_map.mp hmem
      have hik : c.index = k := by
        injection heq
      exact hkf (hik ▸ List.mem_map_of_mem Poi.index (List.mem_filter.mp hcf).1)
  have hd : ∀ k, k ∈ keysOf (diffStep st cands).1 ↔ k ∈ cands.map Poi.index := by
    intro k
    constructor
    · intro hk
      by_contra hkf
      exact absurd ((hc2 k hkf).1) ((mem_keysOf_iff_lookup _ k).mp hk)
    · intro hkf
      apply (mem_keysOf_iff_lookup _ k).mpr
      by_cases hk : k ∈ keysOf st
      · rw [hb k hk hkf]
        exact (mem_keysOf_iff_lookup st k).mp hk
      · obtain ⟨c, hcc, rfl⟩ := List.mem_map.mp hkf
        rw [(ha c hcc hk).1]
        simp
  refine ⟨ha, hb, hc2, hd, ?_, ?_⟩
  · intro e he
    rw [hds2] at he
    obtain ⟨c, hcf, rfl⟩ := List.mem_map.mp he
    obtain ⟨hcc, hdec⟩ := List.mem_filter.mp hcf
    exact ⟨c, hcc, by simpa using hdec, rfl⟩
  · intro q e he
    obtain ⟨k, hek, hkm⟩ := arrivalStep_events _ q e he
    exact ⟨k, hek, (hd k).mp hkm⟩

/-- A tracked zone about to be silently removed (its index 5 is absent from
the next cycle's candidate set). -/
def c7poiA : Poi := ⟨5, 10, 8, 9, Bias.Bullish, none⟩

/-- The sole fresh candidate of the next cycle, at index 7. -/
def c7poiB : Poi := ⟨7, 20, 18, 19, Bias.Bearish, none⟩

/-- A one-zone tracked mapping holding the zone at index 5. -/
def c7st : ZoneMap := [(5, ⟨c7poiA, true⟩)]

/-- C7 witness: diffing the one-zone mapping against a candidate set without
index 5 deletes that zone with no event for it. -/
theorem C7_diff_step_spec_witness :
    lookupZ (diffStep c7st [c7poiB]).1 5 = none ∧
    Event.newZone 5 ∉ (diffStep c7st [c7poiB]).2 :=
  (C7_diff_step_spec c7st [c7poiB] (by decide)).2.2.1 5 (by decide)

end SMC
